import Mathlib

/-!
Verification of the tract convolution/matmul core.

This file gives a shallow embedding of the two source files

  * src/linalg/src/frame/mmm/mmm.rs  (tiled MatMatMul driver)
  * src/core/src/ops/cnn/conv/im2col.rs  (Im2Col operator and Patcher strategies)

and settles the frozen claims about them.  Components of the repository that
are referenced but whose source is not available (the Packer in pack.rs, the
Patch tables in patch.rs, the pool geometry) are modelled from the
specification; their doc comments say so explicitly.

Conventions of the embedding:
  * machine integers and pointer offsets are `Nat`/`Int`;
  * a C matrix is a total function `Nat → Nat → Int`, a write is a function
    update on a rectangle;
  * the microkernel is an abstract capability: a function from the tile
    coordinates to a status and the (mr × nr) block of values it stores;
  * the contents of the input tensor are a total function from the element
    offset to the stored value, mirroring the unchecked pointer reads.
-/

/-! ### Data model shared by both subsystems -/

/-- Element types of interest (fixed-width scalars). -/
inductive DatumType
  | F16
  | F32
  | I8
  | I32
deriving DecidableEq

/-- The dynamic type of a scratch space handed to the driver.  The driver's
own allocation is always `fusedNonLinear ti` where `ti` is the kernel's
internal accumulator type; a caller may hand in anything. -/
inductive ScratchKind
  | fusedNonLinear (ti : DatumType)
  | otherScratch
deriving DecidableEq

/-! ### MatMatMul driver (src/linalg/src/frame/mmm/mmm.rs) -/

/-- Static data of `MatMatMulImpl<K, TC, TI>`: the product geometry `m, k, n`
and the microkernel's tile dimensions `K::mr()`, `K::nr()`. -/
structure MatMatMulImpl where
  m : Nat
  k : Nat
  n : Nat
  mr : Nat
  nr : Nat

/-- Embedding of `can_use_scratch_space`: the downcast to
`ScratchSpaceFusedNonLinear<TI>` succeeds exactly when the scratch object has
that concrete type. -/
def can_use_scratch_space (ti : DatumType) (scratch : ScratchKind) : Bool :=
  match scratch with
  | ScratchKind.fusedNonLinear t => t = ti
  | ScratchKind.otherScratch => false

/-- Write the `rows × cols` rectangle `vals` into `c` with its upper-left
corner at `(baseI, baseJ)`.  A direct `tile_c` write is this with
`rows = mr, cols = nr`; a `set_from_tile` copy-back from scratch is this with
the valid sub-rectangle. -/
def writeTile (c : Nat → Nat → Int) (baseI baseJ rows cols : Nat)
    (vals : Nat → Nat → Int) : Nat → Nat → Int :=
  fun i j =>
    if baseI ≤ i ∧ i < baseI + rows ∧ baseJ ≤ j ∧ j < baseJ + cols then
      vals (i - baseI) (j - baseJ)
    else c i j

/-- Loop combinator: `foldTiles f nb c` runs `f` for indices `0, 1, …, nb-1` in increasing
order starting from `c`: the embedding of a `for i in 0..nb` loop over a
C-matrix state. -/
def foldTiles (f : Nat → (Nat → Nat → Int) → (Nat → Nat → Int)) :
    Nat → (Nat → Nat → Int) → (Nat → Nat → Int)
  | 0, c => c
  | nb + 1, c => f nb (foldTiles f nb c)

/-- The writes performed by `run_with_scratch_space` on the C matrix, given
the values `tile ia ib` each microkernel invocation stores in its (mr × nr)
tile.  The branch structure mirrors the source: full M-rows write full tiles
directly into C (with a dedicated `nr == 1 && n == 1` branch), the partial-N
column and the partial-M row go through the scratch tile and `set_from_tile`
copies back only the valid rectangle. -/
def mmmTiles (g : MatMatMulImpl) (tile : Nat → Nat → Nat → Nat → Int)
    (c : Nat → Nat → Int) : Nat → Nat → Int :=
  let afterFull := foldTiles (fun ia c =>
    if g.nr = 1 ∧ g.n = 1 then
      writeTile c (ia * g.mr) 0 g.mr g.nr (tile ia 0)
    else
      let c := foldTiles
        (fun ib c => writeTile c (ia * g.mr) (ib * g.nr) g.mr g.nr (tile ia ib))
        (g.n / g.nr) c
      if g.n % g.nr ≠ 0 then
        writeTile c (ia * g.mr) (g.n / g.nr * g.nr) g.mr (g.n % g.nr)
          (tile ia (g.n / g.nr))
      else c) (g.m / g.mr) c
  if g.m % g.mr ≠ 0 then
    if g.nr = 1 ∧ g.n = 1 then
      writeTile afterFull (g.m / g.mr * g.mr) 0 (g.m % g.mr) g.nr
        (tile (g.m / g.mr) 0)
    else
      let c := foldTiles
        (fun ib c => writeTile c (g.m / g.mr * g.mr) (ib * g.nr) (g.m % g.mr) g.nr
          (tile (g.m / g.mr) ib))
        (g.n / g.nr) afterFull
      if g.n % g.nr ≠ 0 then
        writeTile c (g.m / g.mr * g.mr) (g.n / g.nr * g.nr) (g.m % g.mr) (g.n % g.nr)
          (tile (g.m / g.mr) (g.n / g.nr))
      else c
  else afterFull

/-- One row of tiles of the driver, with the `nr == 1 && n == 1` special
branch eliminated (when `nr = 1` and `n = 1` the general path performs the
same single write).  Used to state the loop invariants. -/
def processRow (n nr : Nat) (tRow : Nat → Nat → Nat → Int) (baseI rows : Nat)
    (c : Nat → Nat → Int) : Nat → Nat → Int :=
  let c1 := foldTiles
    (fun ib c => writeTile c baseI (ib * nr) rows nr (tRow ib)) (n / nr) c
  if n % nr ≠ 0 then
    writeTile c1 baseI (n / nr * nr) rows (n % nr) (tRow (n / nr))
  else c1

/-- Variant of `mmmTiles` with both `nr == 1 && n == 1` branches folded into the general
per-row path. -/
def mmmTilesRows (g : MatMatMulImpl) (tile : Nat → Nat → Nat → Nat → Int)
    (c : Nat → Nat → Int) : Nat → Nat → Int :=
  let afterFull := foldTiles
    (fun ia c => processRow g.n g.nr (tile ia) (ia * g.mr) g.mr c) (g.m / g.mr) c
  if g.m % g.mr ≠ 0 then
    processRow g.n g.nr (tile (g.m / g.mr)) (g.m / g.mr * g.mr) (g.m % g.mr) afterFull
  else afterFull

/-- Whether some microkernel invocation of the driver returns a non-zero
status, following the exact tile schedule of `run_with_scratch_space`.  In a
debug build the `debug_assert_eq!(err, 0, …)` fires on such a tile; in a
release build the assertion is compiled out. -/
def hasFailingTile (g : MatMatMulImpl) (status : Nat → Nat → Int) : Bool :=
  ((List.range (g.m / g.mr)).any fun ia =>
    if g.nr = 1 ∧ g.n = 1 then status ia 0 ≠ 0
    else
      ((List.range (g.n / g.nr)).any fun ib => status ia ib ≠ 0) ||
        (decide (g.n % g.nr ≠ 0) && decide (status ia (g.n / g.nr) ≠ 0))) ||
  (decide (g.m % g.mr ≠ 0) &&
    (if g.nr = 1 ∧ g.n = 1 then status (g.m / g.mr) 0 ≠ 0
     else
      ((List.range (g.n / g.nr)).any fun ib => status (g.m / g.mr) ib ≠ 0) ||
        (decide (g.n % g.nr ≠ 0) && decide (status (g.m / g.mr) (g.n / g.nr) ≠ 0))))

/-- The errors `run_with_scratch_space` can stop with: the typed "Wrong
scratch space type" error of the failed downcast, and (in debug builds only)
the `debug_assert_eq!` panic on a non-zero kernel status. -/
inductive RunError
  | wrongScratchType
  | debugAssertFailed
deriving DecidableEq

/-- Embedding of `run_with_scratch_space`.  `ker ia ib = (status, vals)` is the abstract
microkernel: the status it returns and the (mr × nr) block it stores for tile
`(ia, ib)`.  The result pairs the control outcome with the final C matrix.
The downcast of the scratch space is checked first, before any kernel
invocation, and on failure C is untouched.  In a release build
(`debugAssertions = false`) the kernel status is bound and then discarded —
`debug_assert_eq!` is compiled out — so the run always completes; in a debug
build a failing tile panics (modelled as `debugAssertFailed`; the panic never
returns, so no final C matrix is observable and we pair the error with the
initial C). -/
def run_with_scratch_space (g : MatMatMulImpl) (ti : DatumType)
    (scratch : ScratchKind) (debugAssertions : Bool)
    (ker : Nat → Nat → Int × (Nat → Nat → Int)) (c : Nat → Nat → Int) :
    Except RunError Unit × (Nat → Nat → Int) :=
  if can_use_scratch_space ti scratch = false then
    (Except.error RunError.wrongScratchType, c)
  else if debugAssertions = true ∧
      hasFailingTile g (fun ia ib => (ker ia ib).1) = true then
    (Except.error RunError.debugAssertFailed, c)
  else
    (Except.ok (), mmmTiles g (fun ia ib => (ker ia ib).2) c)

/-- Embedding of `MatMatMul::run`: allocates a fresh scratch space — always of the
kernel's expected type `ScratchSpaceFusedNonLinear<TI>` — and delegates to
`run_with_scratch_space`. -/
def MatMatMul.run (g : MatMatMulImpl) (ti : DatumType) (debugAssertions : Bool)
    (ker : Nat → Nat → Int × (Nat → Nat → Int)) (c : Nat → Nat → Int) :
    Except RunError Unit × (Nat → Nat → Int) :=
  run_with_scratch_space g ti (ScratchKind.fusedNonLinear ti) debugAssertions ker c

/-- The `while col_byte_offsets.len() < wanted` loop of
`b_from_data_and_offsets`: repeatedly push the current last element until the
length reaches `wanted`. -/
def pushLastUntil (wanted : Nat) (l : List Int) : List Int :=
  if l.length < wanted then pushLastUntil wanted (l ++ [l.getLastD 0]) else l
termination_by wanted - l.length
decreasing_by simp; omega

/-- Embedding of `b_from_data_and_offsets` (offsets-and-pointers B store for the
kernel-of-strides mode): column offsets are scaled to bytes and padded with
the last offset up to the next multiple of `nr`; row offsets are scaled to
bytes and followed by four copies of the last (scaled) row offset to
simplify kernel loop unrolling.  `dtSize` is `dt.size_of()`. -/
def b_from_data_and_offsets (dtSize nr : Nat)
    (rows_offsets cols_offsets : List Int) : List Int × List Int :=
  let wanted := (cols_offsets.length + nr - 1) / nr * nr
  let col_byte_offsets :=
    pushLastUntil wanted (cols_offsets.map fun o => o * (dtSize : Int))
  let row_scaled := rows_offsets.map fun o => o * (dtSize : Int)
  let row_byte_offsets := row_scaled ++ List.replicate 4 (row_scaled.getLastD 0)
  (col_byte_offsets, row_byte_offsets)

/-! ### Packer (modelled from the spec; pack.rs is not under src/) -/

/-- Modelled from the spec: the Packer layout discipline
`(k, panel_width, alignment, end_padding)` of pack.rs, which is not under
src/.  `len`, the dense packing path `pack` and the streaming writer
`write_with_k_outer` below follow §3 and §4.4 of the specification. -/
structure Packer where
  k : Nat
  panel_width : Nat
  alignment : Nat
  end_padding : Nat
deriving DecidableEq

/-- Modelled from the spec: `Packer.len(n) =
((n + panel_width − 1) / panel_width) * (k + end_padding) * panel_width`. -/
def Packer.len (pk : Packer) (n : Nat) : Nat :=
  (n + pk.panel_width - 1) / pk.panel_width * (pk.k + pk.end_padding) * pk.panel_width

/-- Modelled from the spec: the dense packing path.  Panels are emitted in
column-panel order; within a panel a k-row occupies `panel_width` consecutive
elements; short last-panel columns repeat the last column; the end-padding
k-rows carry a fixed filler value (zero in this model — both authoring paths
use the same filler, which is all the equivalence claims need). -/
def Packer.pack {T : Type} [Zero T] (pk : Packer) (n : Nat) (mat : Nat → Nat → T) :
    List T :=
  (List.range ((n + pk.panel_width - 1) / pk.panel_width)).flatMap fun p =>
    (List.range (pk.k + pk.end_padding)).flatMap fun kk =>
      (List.range pk.panel_width).map fun c =>
        if kk < pk.k then mat kk (min (p * pk.panel_width + c) (n - 1)) else 0

/-- Modelled from the spec: the streaming k-outer writer.  The client writes
`k * n` values in k-outer then-n order; the spec guarantees the resulting
layout is identical to the dense packing path, so the writer is the dense
pack of the matrix whose `(kk, j)` entry is the `kk * n + j`-th written
value. -/
def Packer.write_with_k_outer {T : Type} [Zero T] (pk : Packer) (vals : List T)
    (n : Nat) : List T :=
  pk.pack n fun kk j => vals.getD (kk * n + j) 0

/-! ### Patch, DataShape and the Patcher strategies
(src/core/src/ops/cnn/conv/im2col.rs) -/

/-- The per-axis strides of `PoolSpec` carried by the Patch. -/
structure PatchSpec where
  strides : List Nat
deriving DecidableEq

/-- The resolved Patch: per-kernel-element offset tables and the output
spatial shape.  (Patch resolution itself lives in patch.rs, not under src/;
the fields and their invariants are those of §3 of the specification.) -/
structure Patch where
  spec : PatchSpec
  padded : Bool
  data_field : List Int
  standard_layout_data_field : List Int
  output_shape : List Nat
deriving DecidableEq

/-- Embedding of `Patch::rank()`: the number of spatial axes. -/
def Patch.rank (p : Patch) : Nat :=
  p.output_shape.length

/-- The resolved view of the input's layout: spatial dims and the strides the
Patcher strategies read (`h_stride`, `w_stride`, `c_stride`). -/
structure DataShape where
  hwDims : List Nat
  hwStrides : List Nat
  cStride : Nat
deriving DecidableEq

/-- Embedding of `DataShape::h_stride()`. -/
def DataShape.hStride (s : DataShape) : Nat :=
  s.hwStrides.getD 0 0

/-- Embedding of `DataShape::w_stride()`. -/
def DataShape.wStride (s : DataShape) : Nat :=
  s.hwStrides.getD 1 0

/-- The four Patcher strategy variants. -/
inductive Patcher
  | Generic
  | Valid1d
  | Valid2d
  | Padded2d
deriving DecidableEq

/-- The concrete geometry bundled by `SymbolicGeometry::resolve`. -/
structure ConcreteGeometry where
  patch : Patch
  k : Nat
  n : Nat
  b_pack : Packer
  ci_per_group : Nat
  patcher : Patcher

/-- The strategy selection of `SymbolicGeometry::resolve` (the `if` chain on
`geo.patch.padded` and `geo.patch.rank()`). -/
def resolvePatcher (patch : Patch) : Patcher :=
  if patch.padded = false ∧ patch.rank = 2 then Patcher.Valid2d
  else if patch.rank = 2 then Patcher.Padded2d
  else if patch.padded = false ∧ patch.rank = 1 then Patcher.Valid1d
  else Patcher.Generic

/-- The Im2Col operator data used by `output_shape`, `eval` and the
Patcher functions: `k`, the B-side Packer, the group count and whether the
data format carries an N axis. -/
structure Im2Col where
  k : Nat
  b_pack : Packer
  group : Nat
  hasN : Bool

/-- Row-major enumeration of the output spatial lattice, as `ndarray`'s
`indices` iterates it in `Patcher::generic`. -/
def lattice : List Nat → List (List Nat)
  | [] => [[]]
  | d :: rest => (List.range d).flatMap fun i => (lattice rest).map fun t => i :: t

/-- Modelled from the spec: `Patch::at(spatial)` (patch.rs is not under
src/).  For kernel element `i` at output coordinate `spatial` it yields the
input element offset when the window position is inside the input on every
axis, and `None` (≡ pad) otherwise.  Per §3, the position along axis `r` is
`spatial[r] * strides[r] + data_field[i * rank + r]`, and the offset is
`standard_layout_data_field[i]` plus the window-origin offset under the
standard-layout strides. -/
def Patch.at (p : Patch) (shape : DataShape) (spatial : List Nat) (i : Nat) :
    Option Int :=
  let rank := p.output_shape.length
  let pos : Nat → Int := fun r =>
    (spatial.getD r 0 : Int) * (p.spec.strides.getD r 0 : Int) +
      p.data_field.getD (i * rank + r) 0
  if ∀ r, r < rank → 0 ≤ pos r ∧ pos r < (shape.hwDims.getD r 0 : Int) then
    some (p.standard_layout_data_field.getD i 0 +
      ((List.range rank).map fun r =>
        (spatial.getD r 0 : Int) * (p.spec.strides.getD r 0 : Int) *
          (shape.hwStrides.getD r 0 : Int)).sum)
  else none

/-- Embedding of `Patcher::generic`: build the dense (k × n) mega-matrix column by column
over the output spatial lattice — entry order within a column is ci-outer
then kernel element, reading through `Patch::at` with `None ↦ pad_value` —
then delegate the panelization to `Packer::pack`. -/
def Patcher.generic {T : Type} [Zero T] (im2col : Im2Col)
    (geometry : ConcreteGeometry) (input : Int → T) (shape : DataShape)
    (g : Nat) (pad_value : T) : List T :=
  let cols := (lattice geometry.patch.output_shape).map fun spatial =>
    (List.range geometry.ci_per_group).flatMap fun ci =>
      (List.range geometry.patch.standard_layout_data_field.length).map fun i =>
        match geometry.patch.at shape spatial i with
        | some o =>
          input ((shape.cStride * (g * geometry.ci_per_group) : Nat) +
            (shape.cStride * ci : Nat) + o)
        | none => pad_value
  im2col.b_pack.pack geometry.n fun kk j => (cols.getD j []).getD kk 0

/-- Embedding of `Patcher::valid_1d`: no bounds checks; for each input channel of the
group and each kernel offset, emit `output_shape[0]` values with stride
`h_stride * strides[0]` through the streaming writer. -/
def Patcher.valid_1d {T : Type} [Zero T] (im2col : Im2Col)
    (geometry : ConcreteGeometry) (input : Int → T) (shape : DataShape)
    (g : Nat) : List T :=
  let x_stride : Int := (shape.hStride : Int) * (geometry.patch.spec.strides.getD 0 0 : Int)
  let c_stride : Int := (shape.cStride : Int)
  let vals := (List.range geometry.ci_per_group).flatMap fun ci =>
    geometry.patch.standard_layout_data_field.flatMap fun koffset =>
      (List.range (geometry.patch.output_shape.getD 0 0)).map fun (x : Nat) =>
        input (((g * geometry.ci_per_group * shape.cStride : Nat) : Int) +
          (ci : Int) * c_stride + koffset + (x : Int) * x_stride)
  im2col.b_pack.write_with_k_outer vals geometry.n

/-- Embedding of `Patcher::valid_2d`: as `valid_1d` with a y-loop outside the x-loop, both
axes guaranteed in bounds. -/
def Patcher.valid_2d {T : Type} [Zero T] (im2col : Im2Col)
    (geometry : ConcreteGeometry) (input : Int → T) (shape : DataShape)
    (g : Nat) : List T :=
  let y_stride : Int := (geometry.patch.spec.strides.getD 0 0 : Int)
  let x_stride : Int := (geometry.patch.spec.strides.getD 1 0 : Int)
  let y_stride_ptr : Int := y_stride * (shape.hStride : Int)
  let x_stride_ptr : Int := x_stride * (shape.wStride : Int)
  let c_stride_ptr : Int := (shape.cStride : Int)
  let vals := (List.range geometry.ci_per_group).flatMap fun ci =>
    geometry.patch.standard_layout_data_field.flatMap fun koffset =>
      (List.range (geometry.patch.output_shape.getD 0 0)).flatMap fun (y : Nat) =>
        (List.range (geometry.patch.output_shape.getD 1 0)).map fun (x : Nat) =>
          input (((g * geometry.ci_per_group * shape.cStride : Nat) : Int) +
            (ci : Int) * c_stride_ptr + koffset +
            (y : Int) * y_stride_ptr + (x : Int) * x_stride_ptr)
  im2col.b_pack.write_with_k_outer vals geometry.n

/-- Embedding of `Patcher::padded_2d`: for each channel and kernel element `(dy, dx)`,
iterate the output coordinates `(yo, xo)`; if `y = yo·stride_y + dy` is out
of `[0, H)` emit `pad_value` for the whole row, else per `xo` emit the input
value when `x = xo·stride_x + dx ∈ [0, W)` and `pad_value` otherwise. -/
def Patcher.padded_2d {T : Type} [Zero T] (im2col : Im2Col)
    (geometry : ConcreteGeometry) (input : Int → T) (shape : DataShape)
    (g : Nat) (pad_value : T) : List T :=
  let y_stride : Int := (geometry.patch.spec.strides.getD 0 0 : Int)
  let x_stride : Int := (geometry.patch.spec.strides.getD 1 0 : Int)
  let y_stride_ptr : Int := y_stride * (shape.hStride : Int)
  let x_stride_ptr : Int := x_stride * (shape.wStride : Int)
  let c_stride_ptr : Int := (shape.cStride : Int)
  let input_heigth : Int := (shape.hwDims.getD 0 0 : Int)
  let input_width : Int := (shape.hwDims.getD 1 0 : Int)
  let kernel_len := geometry.patch.standard_layout_data_field.length
  let vals := (List.range geometry.ci_per_group).flatMap fun ci =>
    (List.range kernel_len).flatMap fun kitem =>
      let dy := geometry.patch.data_field.getD (kitem * 2) 0
      let dx := geometry.patch.data_field.getD (1 + kitem * 2) 0
      let koffset := geometry.patch.standard_layout_data_field.getD kitem 0
      (List.range (geometry.patch.output_shape.getD 0 0)).flatMap fun (yo : Nat) =>
        let y : Int := (yo : Int) * y_stride + dy
        if 0 ≤ y ∧ y < input_heigth then
          (List.range (geometry.patch.output_shape.getD 1 0)).map fun (xo : Nat) =>
            let x : Int := (xo : Int) * x_stride + dx
            if 0 ≤ x ∧ x < input_width then
              input (((g * geometry.ci_per_group * shape.cStride : Nat) : Int) +
                (ci : Int) * c_stride_ptr + koffset +
                (yo : Int) * y_stride_ptr + (xo : Int) * x_stride_ptr)
            else pad_value
        else
          (List.range (geometry.patch.output_shape.getD 1 0)).map fun _x =>
            pad_value
  im2col.b_pack.write_with_k_outer vals geometry.n

/-- Embedding of `Patcher::patch`: dispatch on the strategy tag; the optional pad-value
scalar defaults to the zero of the element type
(`pad_value.unwrap_or(&Tensor::zero_scalar::<T>()?)`). -/
def Patcher.patch {T : Type} [Zero T] (self : Patcher) (im2col : Im2Col)
    (geo : ConcreteGeometry) (input : Int → T) (shape : DataShape) (g : Nat)
    (pad_value : Option T) : List T :=
  match self with
  | Patcher.Valid1d => Patcher.valid_1d im2col geo input shape g
  | Patcher.Valid2d => Patcher.valid_2d im2col geo input shape g
  | Patcher.Padded2d =>
    Patcher.padded_2d im2col geo input shape g (pad_value.getD 0)
  | Patcher.Generic =>
    Patcher.generic im2col geo input shape g (pad_value.getD 0)

/-! ### Im2Col operator: output shape, eval, declutter -/

/-- Insert a degenerate (size 1) axis at position `pos` of a shape
(`Tensor::insert_axis`). -/
def insertAxis (l : List Nat) (pos : Nat) : List Nat :=
  l.take pos ++ [1] ++ l.drop pos

/-- Remove the axis at position `pos` of a shape (`Tensor::remove_axis`). -/
def removeAxis (l : List Nat) (pos : Nat) : List Nat :=
  l.eraseIdx pos

/-- Embedding of `Im2Col::output_shape`, built by successive pushes: the batch dimension
iff the data format carries N, the group count iff `group ≠ 1`, then
`b_pack.len(n)` where `n` is the product of the output spatial dims
(`nOut` — the pool shape computation lives outside src/). -/
def Im2Col.output_shape (op : Im2Col) (nDim nOut : Nat) : List Nat :=
  let s1 : List Nat := []
  let s2 := if op.hasN then s1 ++ [nDim] else s1
  let s3 := if op.group ≠ 1 then s2 ++ [op.group] else s2
  s3 ++ [op.b_pack.len nOut]

/-- The metadata of the tensor `Im2Col::eval` returns. -/
structure TensorMeta where
  dt : DatumType
  shape : List Nat
  alignment : Nat
deriving DecidableEq

/-- Embedding of `Im2Col::eval` at the level the claims are stated: the returned tensor's
metadata — element type taken from the input, shape `output_shape`, base
alignment `b_pack.alignment()` — together with the list of `(batch, group)`
Patcher invocations it performs.  The output is allocated with
`output_shape`, degenerate N and G axes are inserted for the loop and removed
symmetrically afterwards; the loop is skipped entirely when some output
dimension is zero. -/
def Im2Col.eval (op : Im2Col) (inputDt : DatumType) (nDim nOut : Nat) :
    TensorMeta × List (Nat × Nat) :=
  let output_shape := op.output_shape nDim nOut
  let output1 := if op.hasN = false then insertAxis output_shape 0 else output_shape
  let output2 := if op.group = 1 then insertAxis output1 1 else output1
  let nBatch := if op.hasN then nDim else 1
  let calls :=
    if output_shape.any fun d => d = 0 then ([] : List (Nat × Nat))
    else (List.range nBatch).flatMap fun i =>
      (List.range op.group).map fun g => (i, g)
  let output3 := if op.group = 1 then removeAxis output2 1 else output2
  let output4 := if op.hasN = false then removeAxis output3 0 else output3
  (⟨inputDt, output4, op.b_pack.alignment⟩, calls)

/-- The packed contents `Im2Col::eval` writes: one Patcher invocation per
`(batch, group)` pair of the loop, each writing one packed view.  `inputs i`
is the input view at batch prefix `i`. -/
def Im2Col.evalPacked {T : Type} [Zero T] (op : Im2Col) (geo : ConcreteGeometry)
    (inputDt : DatumType) (nDim nOut : Nat) (inputs : Nat → Int → T)
    (shape : DataShape) (pad_value : Option T) : List (List T) :=
  ((op.eval inputDt nDim nOut).2).map fun ig =>
    Patcher.patch geo.patcher op geo (inputs ig.1) shape ig.2 pad_value

/-- A constant uniform scalar tensor, as `declutter` sees the second input:
its datum type and its value (`konst.as_uniform()`). -/
structure UniformConst where
  dt : DatumType
  val : Int
deriving DecidableEq

/-- The condition under which `Im2Col::declutter` rewrites the node to the
single-input form: the node has exactly two inputs and the second is a
constant uniform equal to `Tensor::zero_scalar_dt(input datum type)`. -/
def im2colDeclutterFires (nInputs : Nat) (inputDt : DatumType)
    (second : Option UniformConst) : Bool :=
  decide (nInputs = 2) && decide (second = some ⟨inputDt, 0⟩)

/-! ### List helper lemmas -/

theorem flatMap_congr_mem {α β : Type} {l : List α} {f g : α → List β}
    (h : ∀ a ∈ l, f a = g a) : l.flatMap f = l.flatMap g := by
  induction l with
  | nil => rfl
  | cons a l ih =>
    rw [List.flatMap_cons, List.flatMap_cons, h a (List.mem_cons_self a l),
      ih fun a ha => h a (List.mem_cons_of_mem _ ha)]

theorem length_flatMap_const {α β : Type} (l : List α) (f : α → List β) (L : Nat)
    (h : ∀ a ∈ l, (f a).length = L) : (l.flatMap f).length = l.length * L := by
  induction l with
  | nil => simp
  | cons a l ih =>
    rw [List.flatMap_cons, List.length_append, h a (List.mem_cons_self a l),
      ih fun a ha => h a (List.mem_cons_of_mem _ ha)]
    simp [List.length_cons, Nat.succ_mul, Nat.add_comm]

theorem getD_flatMap_range {β : Type} (A L : Nat) (g : Nat → List β) (d : β)
    (hL : ∀ a, a < A → (g a).length = L) (a t : Nat) (ha : a < A) (ht : t < L) :
    ((List.range A).flatMap g).getD (a * L + t) d = (g a).getD t d := by
  induction A with
  | zero => omega
  | succ A ih =>
    rw [List.range_succ, List.flatMap_append]
    have hlen : ((List.range A).flatMap g).length = A * L := by
      rw [length_flatMap_const _ _ L fun x hx =>
        hL x (Nat.lt_succ_of_lt (List.mem_range.mp hx))]
      rw [List.length_range]
    rcases Nat.lt_or_ge a A with hA | hA
    · have hidx : a * L + t < A * L := by
        have h1 : (a + 1) * L ≤ A * L := Nat.mul_le_mul_right _ hA
        have h2 : a * L + t < (a + 1) * L := by
          rw [Nat.succ_mul]; omega
        omega
      rw [List.getD_append _ _ _ _ (by omega)]
      exact ih (fun x hx => hL x (Nat.lt_succ_of_lt hx)) hA
    · have haA : a = A := by omega
      subst haA
      rw [List.getD_append_right _ _ _ _ (by omega)]
      simp only [List.flatMap_cons, List.flatMap_nil, List.append_nil, hlen]
      congr 1
      omega

theorem getD_map_range {β : Type} (A : Nat) (h : Nat → β) (d : β) (a : Nat)
    (ha : a < A) : ((List.range A).map h).getD a d = h a := by
  rw [List.getD_eq_getElem?_getD, List.getElem?_map, List.getElem?_range ha]
  rfl

theorem getD_map_of_lt {α β : Type} (l : List α) (f : α → β) (d : β) (d' : α)
    (j : Nat) (hj : j < l.length) : (l.map f).getD j d = f (l.getD j d') := by
  rw [List.getD_eq_getElem?_getD, List.getElem?_map,
    List.getD_eq_getElem?_getD, List.getElem?_eq_getElem hj]
  rfl

theorem flatMap_eq_range_flatMap {α β : Type} (l : List α) (f : α → List β)
    (d : α) :
    l.flatMap f = (List.range l.length).flatMap fun i => f (l.getD i d) := by
  induction l with
  | nil => rfl
  | cons a l ih =>
    rw [List.flatMap_cons, List.length_cons, List.range_succ_eq_map,
      List.flatMap_cons, List.flatMap_map]
    simp only [List.getD_cons_zero, List.getD_cons_succ]
    rw [ih]

theorem getD_replicate_of_lt {α : Type} (n : Nat) (a d : α) (i : Nat)
    (hi : i < n) : (List.replicate n a).getD i d = a := by
  rw [List.getD_eq_getElem?_getD, List.getElem?_eq_getElem (by simpa using hi)]
  simp

theorem getLastD_map_of_ne_nil (f : Int → Int) (l : List Int) (h : l ≠ [])
    (d d' : Int) : (l.map f).getLastD d = f (l.getLastD d') := by
  induction l generalizing d d' with
  | nil => exact absurd rfl h
  | cons a l ih =>
    cases l with
    | nil => rfl
    | cons b t =>
      rw [List.map_cons, List.getLastD_cons, List.getLastD_cons]
      exact ih (by simp) _ _

/-! ### MatMatMul driver: tile coverage lemmas -/

theorem foldTiles_row_getD (nr baseI rows : Nat) (tRow : Nat → Nat → Nat → Int)
    (nb : Nat) (c : Nat → Nat → Int) (i : Nat) (hi1 : baseI ≤ i)
    (hi2 : i < baseI + rows) (ib r : Nat) (hib : ib < nb) (hr : r < nr) :
    foldTiles (fun ib c => writeTile c baseI (ib * nr) rows nr (tRow ib)) nb c
      i (ib * nr + r) = tRow ib (i - baseI) r := by
  induction nb generalizing c with
  | zero => omega
  | succ nb ih =>
    simp only [foldTiles, writeTile]
    rcases Nat.lt_or_ge ib nb with hA | hA
    · have h1 : (ib + 1) * nr ≤ nb * nr := Nat.mul_le_mul_right _ (by omega)
      have h2 : (ib + 1) * nr = ib * nr + nr := by ring
      rw [if_neg (by omega)]
      exact ih c hA
    · have hib' : ib = nb := by omega
      subst hib'
      rw [if_pos (by omega)]
      congr 1
      omega

theorem foldTiles_row_frame (nr baseI rows : Nat) (tRow : Nat → Nat → Nat → Int)
    (nb : Nat) (c : Nat → Nat → Int) (i j : Nat)
    (h : i < baseI ∨ baseI + rows ≤ i ∨ nb * nr ≤ j) :
    foldTiles (fun ib c => writeTile c baseI (ib * nr) rows nr (tRow ib)) nb c
      i j = c i j := by
  induction nb generalizing c with
  | zero => rfl
  | succ nb ih =>
    have h1 : nb * nr ≤ (nb + 1) * nr := Nat.mul_le_mul_right _ (by omega)
    have h2 : (nb + 1) * nr = nb * nr + nr := by ring
    simp only [foldTiles, writeTile]
    rw [if_neg (by omega)]
    exact ih c (by omega)

theorem processRow_getD (n nr : Nat) (hnr : 0 < nr) (tRow : Nat → Nat → Nat → Int)
    (baseI rows : Nat) (c : Nat → Nat → Int) (i j : Nat) (hi1 : baseI ≤ i)
    (hi2 : i < baseI + rows) (hj : j < n) :
    processRow n nr tRow baseI rows c i j = tRow (j / nr) (i - baseI) (j % nr) := by
  have hdm := Nat.div_add_mod j nr
  have hmod := Nat.mod_lt j hnr
  have hdm2 := Nat.div_add_mod n nr
  have hc1 : nr * (j / nr) = j / nr * nr := Nat.mul_comm _ _
  have hc2 : nr * (n / nr) = n / nr * nr := Nat.mul_comm _ _
  simp only [processRow]
  rcases Nat.lt_or_ge (j / nr) (n / nr) with hq | hq
  · have h1 : (j / nr + 1) * nr ≤ n / nr * nr := Nat.mul_le_mul_right _ (by omega)
    have h2 : (j / nr + 1) * nr = j / nr * nr + nr := by ring
    have key := foldTiles_row_getD nr baseI rows tRow (n / nr) c i hi1 hi2
      (j / nr) (j % nr) hq hmod
    have hj' : j / nr * nr + j % nr = j := by omega
    rw [hj'] at key
    by_cases hrem : n % nr ≠ 0
    · rw [if_pos hrem]
      simp only [writeTile]
      rw [if_neg (by omega)]
      exact key
    · rw [if_neg hrem]
      exact key
  · have heq : j / nr = n / nr :=
      le_antisymm (Nat.div_le_div_right (le_of_lt hj)) hq
    rw [heq] at hdm hc1
    have hrem : n % nr ≠ 0 := by omega
    rw [if_pos hrem]
    simp only [writeTile]
    rw [if_pos (by omega)]
    rw [heq]
    congr 1
    omega

theorem processRow_frame (n nr : Nat) (tRow : Nat → Nat → Nat → Int)
    (baseI rows : Nat) (c : Nat → Nat → Int) (i j : Nat)
    (h : i < baseI ∨ baseI + rows ≤ i ∨ n ≤ j) :
    processRow n nr tRow baseI rows c i j = c i j := by
  have hdiv : n / nr * nr ≤ n := Nat.div_mul_le_self n nr
  have hdm2 := Nat.div_add_mod n nr
  have hc2 : nr * (n / nr) = n / nr * nr := Nat.mul_comm _ _
  simp only [processRow]
  by_cases hrem : n % nr ≠ 0
  · rw [if_pos hrem]
    simp only [writeTile]
    rw [if_neg (by omega)]
    exact foldTiles_row_frame nr baseI rows tRow (n / nr) c i j (by omega)
  · rw [if_neg hrem]
    exact foldTiles_row_frame nr baseI rows tRow (n / nr) c i j (by omega)

theorem foldRows_getD (n nr mr : Nat) (hnr : 0 < nr)
    (tile : Nat → Nat → Nat → Nat → Int) (nb : Nat) (c : Nat → Nat → Int)
    (ia r j : Nat) (hia : ia < nb) (hr : r < mr) (hj : j < n) :
    foldTiles (fun ia c => processRow n nr (tile ia) (ia * mr) mr c) nb c
      (ia * mr + r) j = tile ia (j / nr) r (j % nr) := by
  induction nb generalizing c with
  | zero => omega
  | succ nb ih =>
    simp only [foldTiles]
    rcases Nat.lt_or_ge ia nb with hA | hA
    · have h1 : (ia + 1) * mr ≤ nb * mr := Nat.mul_le_mul_right _ (by omega)
      have h2 : (ia + 1) * mr = ia * mr + mr := by ring
      rw [processRow_frame _ _ _ _ _ _ _ _ (Or.inl (by omega))]
      exact ih c hA
    · have hia' : ia = nb := by omega
      subst hia'
      rw [processRow_getD n nr hnr _ (ia * mr) mr _ _ _ (by omega) (by omega) hj]
      congr 1
      omega

theorem foldRows_frame (n nr mr : Nat) (tile : Nat → Nat → Nat → Nat → Int)
    (nb : Nat) (c : Nat → Nat → Int) (i j : Nat) (h : nb * mr ≤ i ∨ n ≤ j) :
    foldTiles (fun ia c => processRow n nr (tile ia) (ia * mr) mr c) nb c
      i j = c i j := by
  induction nb generalizing c with
  | zero => rfl
  | succ nb ih =>
    have h1 : nb * mr ≤ (nb + 1) * mr := Nat.mul_le_mul_right _ (by omega)
    have h2 : (nb + 1) * mr = nb * mr + mr := by ring
    simp only [foldTiles]
    rw [processRow_frame _ _ _ _ _ _ _ _ (by omega)]
    exact ih c (by omega)

theorem mmmTilesRows_getD (g : MatMatMulImpl) (hmr : 0 < g.mr) (hnr : 0 < g.nr)
    (tile : Nat → Nat → Nat → Nat → Int) (c : Nat → Nat → Int) (i j : Nat)
    (hi : i < g.m) (hj : j < g.n) :
    mmmTilesRows g tile c i j = tile (i / g.mr) (j / g.nr) (i % g.mr) (j % g.nr) := by
  have hdm := Nat.div_add_mod i g.mr
  have hmod := Nat.mod_lt i hmr
  have hdm2 := Nat.div_add_mod g.m g.mr
  have hc1 : g.mr * (i / g.mr) = i / g.mr * g.mr := Nat.mul_comm _ _
  have hc2 : g.mr * (g.m / g.mr) = g.m / g.mr * g.mr := Nat.mul_comm _ _
  simp only [mmmTilesRows]
  rcases Nat.lt_or_ge (i / g.mr) (g.m / g.mr) with hq | hq
  · have h1 : (i / g.mr + 1) * g.mr ≤ g.m / g.mr * g.mr :=
      Nat.mul_le_mul_right _ (by omega)
    have h2 : (i / g.mr + 1) * g.mr = i / g.mr * g.mr + g.mr := by ring
    have key := foldRows_getD g.n g.nr g.mr hnr tile (g.m / g.mr) c
      (i / g.mr) (i % g.mr) j hq hmod hj
    have hi' : i / g.mr * g.mr + i % g.mr = i := by omega
    rw [hi'] at key
    by_cases hrem : g.m % g.mr ≠ 0
    · rw [if_pos hrem, processRow_frame _ _ _ _ _ _ _ _ (Or.inl (by omega))]
      exact key
    · rw [if_neg hrem]
      exact key
  · have heq : i / g.mr = g.m / g.mr :=
      le_antisymm (Nat.div_le_div_right (le_of_lt hi)) hq
    rw [heq] at hdm hc1
    have hrem : g.m % g.mr ≠ 0 := by omega
    rw [if_pos hrem]
    rw [processRow_getD g.n g.nr hnr _ (g.m / g.mr * g.mr) (g.m % g.mr) _ _ _
      (by omega) (by omega) hj]
    have h3 : i - g.m / g.mr * g.mr = i % g.mr := by omega
    rw [h3, ← heq]

theorem mmmTiles_eq_rows (g : MatMatMulImpl) (tile : Nat → Nat → Nat → Nat → Int)
    (c : Nat → Nat → Int) : mmmTiles g tile c = mmmTilesRows g tile c := by
  by_cases hs : g.nr = 1 ∧ g.n = 1
  · obtain ⟨h1, h2⟩ := hs
    simp [mmmTiles, mmmTilesRows, processRow, h1, h2, foldTiles]
  · simp only [mmmTiles, mmmTilesRows, processRow, hs, if_false]

theorem hasFailingTile_eq_false (g : MatMatMulImpl) (status : Nat → Nat → Int)
    (h : ∀ ia ib, status ia ib = 0) : hasFailingTile g status = false := by
  simp [hasFailingTile, h]

/-- C1: with an abstract microkernel that fulfils its per-tile contract — for
tile `(ia, ib)` it stores `Σ_l A[ia·mr+r, l]·B[l, ib·nr+s]` at the in-range
local positions and returns status 0 — `MatMatMul::run` (which allocates the
matching scratch space and calls `run_with_scratch_space`) succeeds and
leaves every in-range entry of C equal to `Σ_l A[i,l]·B[l,j]`, exactly, in
the integer model; edge tiles (m or n not divisible by mr, nr) are covered
by the same statement. -/
theorem run_computes_matmul (g : MatMatMulImpl) (A B : Nat → Nat → Int)
    (ti : DatumType) (debugAssertions : Bool)
    (ker : Nat → Nat → Int × (Nat → Nat → Int)) (c : Nat → Nat → Int)
    (hmr : 0 < g.mr) (hnr : 0 < g.nr)
    (hstat : ∀ ia ib, (ker ia ib).1 = 0)
    (hker : ∀ ia ib r s, r < g.mr → s < g.nr → ia * g.mr + r < g.m →
      ib * g.nr + s < g.n →
      (ker ia ib).2 r s
        = ∑ l ∈ Finset.range g.k, A (ia * g.mr + r) l * B l (ib * g.nr + s)) :
    (MatMatMul.run g ti debugAssertions ker c).1 = Except.ok () ∧
    ∀ i j, i < g.m → j < g.n →
      (MatMatMul.run g ti debugAssertions ker c).2 i j
        = ∑ l ∈ Finset.range g.k, A i l * B l j := by
  have hrun : MatMatMul.run g ti debugAssertions ker c
      = (Except.ok (), mmmTiles g (fun ia ib => (ker ia ib).2) c) := by
    unfold MatMatMul.run run_with_scratch_space
    rw [hasFailingTile_eq_false g _ fun ia ib => hstat ia ib]
    simp [can_use_scratch_space]
  constructor
  · rw [hrun]
  · intro i j hi hj
    rw [hrun]
    show mmmTiles g (fun ia ib => (ker ia ib).2) c i j = _
    rw [mmmTiles_eq_rows, mmmTilesRows_getD g hmr hnr _ c i j hi hj]
    have hci : g.mr * (i / g.mr) = i / g.mr * g.mr := Nat.mul_comm _ _
    have hcj : g.nr * (j / g.nr) = j / g.nr * g.nr := Nat.mul_comm _ _
    have hdi := Nat.div_add_mod i g.mr
    have hdj := Nat.div_add_mod j g.nr
    have h1 : i / g.mr * g.mr + i % g.mr = i := by omega
    have h2 : j / g.nr * g.nr + j % g.nr = j := by omega
    rw [hker (i / g.mr) (j / g.nr) (i % g.mr) (j % g.nr)
      (Nat.mod_lt i hmr) (Nat.mod_lt j hnr) (by omega) (by omega)]
    rw [h1, h2]

theorem run_computes_matmul_witness :
    (MatMatMul.run ⟨5, 3, 5, 4, 4⟩ DatumType.F32 false
      (fun ia ib => ((0 : Int), fun r s =>
        ∑ l ∈ Finset.range (3 : Nat),
          (fun _ _ => (1 : Int)) (ia * 4 + r) l *
            (fun _ _ => (1 : Int)) l (ib * 4 + s)))
      (fun _ _ => (0 : Int))).2 4 4 = 3 := by
  have h := run_computes_matmul ⟨5, 3, 5, 4, 4⟩ (fun _ _ => (1 : Int))
    (fun _ _ => (1 : Int)) DatumType.F32 false
    (fun ia ib => ((0 : Int), fun r s =>
      ∑ l ∈ Finset.range (3 : Nat),
        (fun _ _ => (1 : Int)) (ia * 4 + r) l *
          (fun _ _ => (1 : Int)) l (ib * 4 + s)))
    (fun _ _ => (0 : Int)) (by decide) (by decide)
    (fun _ _ => rfl)
    (fun _ _ _ _ _ _ _ _ => rfl)
  have h2 := h.2 4 4 (by decide) (by decide)
  rw [h2]
  decide

/-- C2, counterexample: a release-build (`debugAssertions = false`) call in
which the microkernel reports a non-zero status for a tile that the driver
does run, yet `run_with_scratch_space` returns success: the status is bound
and discarded (`debug_assert_eq!` is compiled out), so the error does not
surface upward. -/
theorem release_ignores_kernel_status_cex :
    hasFailingTile ⟨1, 1, 1, 1, 1⟩ (fun _ _ => (1 : Int)) = true ∧
    (run_with_scratch_space ⟨1, 1, 1, 1, 1⟩ DatumType.F32
      (ScratchKind.fusedNonLinear DatumType.F32) false
      (fun _ _ => ((1 : Int), fun _ _ => (0 : Int))) (fun _ _ => (0 : Int))).1
      = Except.ok () := by
  exact ⟨by decide, rfl⟩

/-- C2, amended: a non-zero microkernel status is treated as a programming
invariant violation in debug builds (the `debug_assert_eq!` fires), but in
release builds it is NOT surfaced: the status is discarded and the call
returns success whenever the scratch type matches. -/
theorem kernel_status_release_vs_debug (g : MatMatMulImpl) (ti : DatumType)
    (ker : Nat → Nat → Int × (Nat → Nat → Int)) (c : Nat → Nat → Int) :
    (run_with_scratch_space g ti (ScratchKind.fusedNonLinear ti) false ker c).1
      = Except.ok () ∧
    (hasFailingTile g (fun ia ib => (ker ia ib).1) = true →
      (run_with_scratch_space g ti (ScratchKind.fusedNonLinear ti) true ker c).1
        = Except.error RunError.debugAssertFailed) := by
  have hcan : can_use_scratch_space ti (ScratchKind.fusedNonLinear ti) = true := by
    simp [can_use_scratch_space]
  constructor
  · unfold run_with_scratch_space
    rw [hcan]
    simp
  · intro h
    unfold run_with_scratch_space
    rw [hcan, h]
    simp

theorem kernel_status_release_vs_debug_witness :
    (run_with_scratch_space ⟨1, 1, 1, 1, 1⟩ DatumType.F32
      (ScratchKind.fusedNonLinear DatumType.F32) true
      (fun _ _ => ((1 : Int), fun _ _ => (0 : Int))) (fun _ _ => (0 : Int))).1
      = Except.error RunError.debugAssertFailed :=
  (kernel_status_release_vs_debug ⟨1, 1, 1, 1, 1⟩ DatumType.F32
    (fun _ _ => ((1 : Int), fun _ _ => (0 : Int))) (fun _ _ => (0 : Int))).2
    (by decide)

/-- C9: `can_use_scratch_space` accepts exactly the scratch objects of the
kernel's expected concrete type `ScratchSpaceFusedNonLinear<TI>`, and
`run_with_scratch_space` on a scratch of any other type returns the typed
"Wrong scratch space type" error before any kernel invocation, leaving C
unmodified (the pair's C component is the untouched input matrix, and the
result does not depend on the kernel at all). -/
theorem scratch_type_check (g : MatMatMulImpl) (ti : DatumType)
    (s : ScratchKind) (debugAssertions : Bool)
    (ker : Nat → Nat → Int × (Nat → Nat → Int)) (c : Nat → Nat → Int) :
    (can_use_scratch_space ti s = true ↔ s = ScratchKind.fusedNonLinear ti) ∧
    (s ≠ ScratchKind.fusedNonLinear ti →
      run_with_scratch_space g ti s debugAssertions ker c
        = (Except.error RunError.wrongScratchType, c)) := by
  have hiff : can_use_scratch_space ti s = true ↔ s = ScratchKind.fusedNonLinear ti := by
    cases s with
    | fusedNonLinear t => simp [can_use_scratch_space]
    | otherScratch => simp [can_use_scratch_space]
  refine ⟨hiff, fun hne => ?_⟩
  have hfalse : can_use_scratch_space ti s = false := by
    cases h : can_use_scratch_space ti s
    · rfl
    · exact absurd (hiff.mp h) hne
  unfold run_with_scratch_space
  rw [if_pos hfalse]

theorem scratch_type_check_witness :
    run_with_scratch_space ⟨1, 1, 1, 1, 1⟩ DatumType.F32 ScratchKind.otherScratch
      false (fun _ _ => ((0 : Int), fun _ _ => (0 : Int))) (fun _ _ => (0 : Int))
      = (Except.error RunError.wrongScratchType, fun _ _ => (0 : Int)) :=
  (scratch_type_check ⟨1, 1, 1, 1, 1⟩ DatumType.F32 ScratchKind.otherScratch
    false (fun _ _ => ((0 : Int), fun _ _ => (0 : Int))) (fun _ _ => (0 : Int))).2
    (by decide)

theorem pushLastUntil_eq (wanted : Nat) (l : List Int) (h : l ≠ []) :
    pushLastUntil wanted l
      = l ++ List.replicate (wanted - l.length) (l.getLastD 0) := by
  generalize hd : wanted - l.length = d
  induction d generalizing l with
  | zero =>
    rw [pushLastUntil, if_neg (by omega)]
    simp
  | succ d ih =>
    rw [pushLastUntil, if_pos (by omega)]
    have hlast : (l ++ [l.getLastD 0]).getLastD 0 = l.getLastD 0 :=
      List.getLastD_concat _ _ _
    rw [ih (l ++ [l.getLastD 0]) (by simp) (by simp; omega), hlast,
      List.append_assoc, List.replicate_succ, List.singleton_append]

/-- C10: for non-empty offset lists, `b_from_data_and_offsets` produces
column byte offsets of length `ceil(len(cols)/nr)·nr` — the given offsets
scaled by the datum size, padded beyond `len(cols)` with the scaled last
column offset — and row byte offsets of length `len(rows) + 4` — the given
offsets scaled, with the last four entries equal to the scaled last row
offset. -/
theorem b_from_data_and_offsets_spec (dtSize nr : Nat)
    (rows_offsets cols_offsets : List Int) (hrow : rows_offsets ≠ [])
    (hcol : cols_offsets ≠ []) (hnr : 0 < nr) :
    (b_from_data_and_offsets dtSize nr rows_offsets cols_offsets).1.length
        = (cols_offsets.length + nr - 1) / nr * nr ∧
    (∀ i, i < cols_offsets.length →
      (b_from_data_and_offsets dtSize nr rows_offsets cols_offsets).1.getD i 0
        = cols_offsets.getD i 0 * (dtSize : Int)) ∧
    (∀ i, cols_offsets.length ≤ i → i < (cols_offsets.length + nr - 1) / nr * nr →
      (b_from_data_and_offsets dtSize nr rows_offsets cols_offsets).1.getD i 0
        = cols_offsets.getLastD 0 * (dtSize : Int)) ∧
    (b_from_data_and_offsets dtSize nr rows_offsets cols_offsets).2.length
        = rows_offsets.length + 4 ∧
    (∀ i, i < rows_offsets.length →
      (b_from_data_and_offsets dtSize nr rows_offsets cols_offsets).2.getD i 0
        = rows_offsets.getD i 0 * (dtSize : Int)) ∧
    (∀ i, rows_offsets.length ≤ i → i < rows_offsets.length + 4 →
      (b_from_data_and_offsets dtSize nr rows_offsets cols_offsets).2.getD i 0
        = rows_offsets.getLastD 0 * (dtSize : Int)) := by
  have hwanted : cols_offsets.length ≤ (cols_offsets.length + nr - 1) / nr * nr := by
    have h1 := Nat.div_add_mod (cols_offsets.length + nr - 1) nr
    have h2 := Nat.mod_lt (cols_offsets.length + nr - 1) hnr
    have hc : nr * ((cols_offsets.length + nr - 1) / nr)
        = (cols_offsets.length + nr - 1) / nr * nr := Nat.mul_comm _ _
    omega
  have hmapne : cols_offsets.map (fun o => o * (dtSize : Int)) ≠ [] := by
    simp [hcol]
  have hmaplen : (cols_offsets.map fun o => o * (dtSize : Int)).length
      = cols_offsets.length := List.length_map _ _
  have hcols : (b_from_data_and_offsets dtSize nr rows_offsets cols_offsets).1
      = cols_offsets.map (fun o => o * (dtSize : Int)) ++
        List.replicate ((cols_offsets.length + nr - 1) / nr * nr - cols_offsets.length)
          ((cols_offsets.map fun o => o * (dtSize : Int)).getLastD 0) := by
    simp only [b_from_data_and_offsets]
    rw [pushLastUntil_eq _ _ hmapne, hmaplen]
  have hrows : (b_from_data_and_offsets dtSize nr rows_offsets cols_offsets).2
      = rows_offsets.map (fun o => o * (dtSize : Int)) ++
        List.replicate 4 ((rows_offsets.map fun o => o * (dtSize : Int)).getLastD 0) := by
    simp only [b_from_data_and_offsets]
  have hrowlen : (rows_offsets.map fun o => o * (dtSize : Int)).length
      = rows_offsets.length := List.length_map _ _
  refine ⟨?_, ?_, ?_, ?_, ?_, ?_⟩
  · rw [hcols]
    simp only [List.length_append, List.length_replicate, hmaplen]
    omega
  · intro i hi
    rw [hcols, List.getD_append _ _ _ _ (by omega),
      getD_map_of_lt _ _ _ 0 _ hi]
  · intro i hi1 hi2
    rw [hcols, List.getD_append_right _ _ _ _ (by omega), hmaplen,
      getD_replicate_of_lt _ _ _ _ (by omega),
      getLastD_map_of_ne_nil _ _ hcol _ 0]
  · rw [hrows]
    simp only [List.length_append, List.length_replicate, hrowlen]
  · intro i hi
    rw [hrows, List.getD_append _ _ _ _ (by omega),
      getD_map_of_lt _ _ _ 0 _ hi]
  · intro i hi1 hi2
    rw [hrows, List.getD_append_right _ _ _ _ (by omega), hrowlen,
      getD_replicate_of_lt _ _ _ _ (by omega),
      getLastD_map_of_ne_nil _ _ hrow _ 0]

theorem b_from_data_and_offsets_spec_witness :
    (b_from_data_and_offsets 4 4 [(2 : Int)] [(3 : Int)]).1.getD 2 0 = 12 ∧
    (b_from_data_and_offsets 4 4 [(2 : Int)] [(3 : Int)]).2.length = 5 := by
  have h := b_from_data_and_offsets_spec 4 4 [(2 : Int)] [(3 : Int)]
    (by decide) (by decide) (by decide)
  exact ⟨(h.2.2.1 2 (by decide) (by decide)).trans (by decide),
    h.2.2.2.1.trans (by decide)⟩

/-! ### Im2Col: strategy selection, output shape, pad elision, short-circuit -/

/-- C3: the strategy chosen by `SymbolicGeometry::resolve` is exactly
Valid2d for rank 2 unpadded, Padded2d for rank 2 padded, Valid1d for rank 1
unpadded, and Generic in every other case; the four characterizations are
mutually exclusive and exhaustive (they partition the (rank, padded)
space). -/
theorem resolve_strategy_selection (p : Patch) :
    (resolvePatcher p = Patcher.Valid2d ↔ p.rank = 2 ∧ p.padded = false) ∧
    (resolvePatcher p = Patcher.Padded2d ↔ p.rank = 2 ∧ p.padded = true) ∧
    (resolvePatcher p = Patcher.Valid1d ↔ p.rank = 1 ∧ p.padded = false) ∧
    (resolvePatcher p = Patcher.Generic ↔
      (p.rank = 1 ∧ p.padded = true) ∨ (p.rank ≠ 1 ∧ p.rank ≠ 2)) := by
  unfold resolvePatcher
  cases hp : p.padded <;>
    by_cases h2 : p.rank = 2 <;> by_cases h1 : p.rank = 1 <;>
      simp [hp, h2, h1]

theorem resolve_strategy_selection_witness :
    resolvePatcher ⟨⟨[1, 1]⟩, false, [0, 0], [0], [2, 2]⟩ = Patcher.Valid2d :=
  (resolve_strategy_selection ⟨⟨[1, 1]⟩, false, [0, 0], [0], [2, 2]⟩).1.mpr
    ⟨rfl, rfl⟩

theorem removeAxis_insertAxis_zero (l : List Nat) :
    removeAxis (insertAxis l 0) 0 = l := by
  simp [insertAxis, removeAxis]

theorem removeAxis_insertAxis_one (l : List Nat) (h : l ≠ []) :
    removeAxis (insertAxis l 1) 1 = l := by
  cases l with
  | nil => exact absurd rfl h
  | cons a t => simp [insertAxis, removeAxis]

theorem output_shape_ne_nil (op : Im2Col) (nDim nOut : Nat) :
    op.output_shape nDim nOut ≠ [] := by
  simp [Im2Col.output_shape]

theorem eval_meta_eq (op : Im2Col) (inputDt : DatumType) (nDim nOut : Nat) :
    (op.eval inputDt nDim nOut).1
      = ⟨inputDt, op.output_shape nDim nOut, op.b_pack.alignment⟩ := by
  have hne := output_shape_ne_nil op nDim nOut
  have hshape : (op.eval inputDt nDim nOut).1.shape = op.output_shape nDim nOut := by
    simp only [Im2Col.eval]
    by_cases hN : op.hasN = false
    · by_cases hG : op.group = 1
      · have h1 : insertAxis (op.output_shape nDim nOut) 0 ≠ [] := by
          simp [insertAxis]
        simp [hN, hG, removeAxis_insertAxis_one _ h1, removeAxis_insertAxis_zero]
      · simp [hN, hG, removeAxis_insertAxis_zero]
    · by_cases hG : op.group = 1
      · simp [hN, hG, removeAxis_insertAxis_one _ hne]
      · simp [hN, hG]
  rw [← hshape]
  rfl

/-- C6: `Im2Col::output_shape` is the batch dimension iff the data format
carries N, then the group count iff `group > 1`, then `Packer.len(n)` for
`n` the product of the output spatial dims; and the tensor `eval` returns
has the input's element type, exactly this shape, and the Packer's base
alignment (the degenerate axes inserted for the loop are removed
symmetrically). -/
theorem eval_output_meta_spec (op : Im2Col) (inputDt : DatumType)
    (nDim nOut : Nat) :
    (op.eval inputDt nDim nOut).1
      = ⟨inputDt, op.output_shape nDim nOut, op.b_pack.alignment⟩ ∧
    op.output_shape nDim nOut
      = (if op.hasN then [nDim] else [])
        ++ (if op.group ≠ 1 then [op.group] else [])
        ++ [op.b_pack.len nOut] := by
  refine ⟨eval_meta_eq op inputDt nDim nOut, ?_⟩
  simp only [Im2Col.output_shape]
  by_cases hG : op.group ≠ 1 <;> by_cases hN : op.hasN <;> simp [hG, hN]

/-- C7: an Im2Col node whose optional second input is the uniform zero
scalar of the element type produces byte-identical packed output to the
single-input form — the pad value defaults to zero in `Patcher::patch`, for
every strategy — and `declutter` rewrites the two-input form to the
single-input form exactly when the node has two inputs and the second is a
constant uniform zero of the input's datum type. -/
theorem pad_zero_elision_equiv {T : Type} [Zero T] (op : Im2Col)
    (geo : ConcreteGeometry) (inputDt : DatumType) (nDim nOut : Nat)
    (inputs : Nat → Int → T) (shape : DataShape) (nInputs : Nat)
    (second : Option UniformConst) :
    Im2Col.evalPacked op geo inputDt nDim nOut inputs shape (some (0 : T))
      = Im2Col.evalPacked op geo inputDt nDim nOut inputs shape none ∧
    (im2colDeclutterFires nInputs inputDt second = true ↔
      nInputs = 2 ∧ second = some ⟨inputDt, 0⟩) := by
  constructor
  · simp only [Im2Col.evalPacked]
    apply List.map_congr_left
    intro ig _
    cases hp : geo.patcher <;> rfl
  · simp [im2colDeclutterFires]

theorem pad_zero_elision_equiv_witness :
    im2colDeclutterFires 2 DatumType.F32 (some ⟨DatumType.F32, 0⟩) = true :=
  (pad_zero_elision_equiv (T := Int) ⟨1, ⟨1, 1, 4, 0⟩, 1, true⟩
    ⟨⟨⟨[1]⟩, false, [0], [0], [1]⟩, 1, 1, ⟨1, 1, 4, 0⟩, 1, Patcher.Generic⟩
    DatumType.F32 1 1 (fun _ _ => 0) ⟨[1], [1], 1⟩ 2
    (some ⟨DatumType.F32, 0⟩)).2.mpr ⟨rfl, rfl⟩

/-- C8: when the resolved output shape contains a zero dimension, `eval`
performs no Patcher invocation at all (the batch × group loop is skipped)
and still returns a tensor of exactly the specified output shape. -/
theorem zero_dim_short_circuit (op : Im2Col) (inputDt : DatumType)
    (nDim nOut : Nat) (h : 0 ∈ op.output_shape nDim nOut) :
    (op.eval inputDt nDim nOut).2 = [] ∧
    (op.eval inputDt nDim nOut).1.shape = op.output_shape nDim nOut := by
  constructor
  · simp only [Im2Col.eval]
    rw [if_pos (List.any_eq_true.mpr ⟨0, h, rfl⟩)]
  · rw [eval_meta_eq]

theorem zero_dim_short_circuit_witness :
    ((⟨1, ⟨1, 1, 4, 0⟩, 1, true⟩ : Im2Col).eval DatumType.F32 1 0).2 = [] :=
  (zero_dim_short_circuit ⟨1, ⟨1, 1, 4, 0⟩, 1, true⟩ DatumType.F32 1 0
    (by decide)).1

/-! ### Packer congruence and Patcher equivalences -/

theorem Packer.pack_congr {T : Type} [Zero T] (pk : Packer) (n : Nat)
    (f f2 : Nat → Nat → T) (h : ∀ kk j, kk < pk.k → j < n → f kk j = f2 kk j) :
    pk.pack n f = pk.pack n f2 := by
  unfold Packer.pack
  apply flatMap_congr_mem
  intro p hp
  apply flatMap_congr_mem
  intro kk hkk
  apply List.map_congr_left
  intro c hc
  by_cases hk : kk < pk.k
  · rw [if_pos hk, if_pos hk]
    have hn0 : 0 < n := by
      by_contra hn0
      have hn' : n = 0 := by omega
      subst hn'
      have hp' := List.mem_range.mp hp
      rcases Nat.eq_zero_or_pos pk.panel_width with hw | hw
      · rw [hw] at hp'
        simp at hp'
      · rw [Nat.div_eq_of_lt (by omega)] at hp'
        omega
    apply h _ _ hk
    have := Nat.min_le_right (p * pk.panel_width + c) (n - 1)
    omega
  · rw [if_neg hk, if_neg hk]

/-- C5: on a rank-2 Patch where no window position falls outside the input
(each per-axis position `yo·stride + dy` and `xo·stride + dx` is inside
`[0, H)` resp. `[0, W)` for every kernel element and output coordinate),
`Patcher::padded_2d` with any pad value writes a packed output byte-identical
to `Patcher::valid_2d` on the same input, geometry, group index and
destination: every bounds check succeeds, so the emitted value stream — and
hence the packed buffer — coincides with the unchecked one. -/
theorem padded_2d_no_pad_eq_valid_2d {T : Type} [Zero T] (im2col : Im2Col)
    (geo : ConcreteGeometry) (input : Int → T) (shape : DataShape) (g : Nat)
    (pad : T) (hrank : geo.patch.rank = 2)
    (hin : ∀ kitem, kitem < geo.patch.standard_layout_data_field.length →
      ∀ yo, yo < geo.patch.output_shape.getD 0 0 →
      ∀ xo, xo < geo.patch.output_shape.getD 1 0 →
        (0 ≤ (yo : Int) * (geo.patch.spec.strides.getD 0 0 : Int) +
            geo.patch.data_field.getD (kitem * 2) 0 ∧
          (yo : Int) * (geo.patch.spec.strides.getD 0 0 : Int) +
            geo.patch.data_field.getD (kitem * 2) 0
              < (shape.hwDims.getD 0 0 : Int)) ∧
        (0 ≤ (xo : Int) * (geo.patch.spec.strides.getD 1 0 : Int) +
            geo.patch.data_field.getD (1 + kitem * 2) 0 ∧
          (xo : Int) * (geo.patch.spec.strides.getD 1 0 : Int) +
            geo.patch.data_field.getD (1 + kitem * 2) 0
              < (shape.hwDims.getD 1 0 : Int))) :
    Patcher.padded_2d im2col geo input shape g pad
      = Patcher.valid_2d im2col geo input shape g := by
  simp only [Patcher.padded_2d, Patcher.valid_2d]
  congr 1
  apply flatMap_congr_mem
  intro ci hci
  rw [flatMap_eq_range_flatMap geo.patch.standard_layout_data_field _ (0 : Int)]
  apply flatMap_congr_mem
  intro kitem hkitem
  have hk := List.mem_range.mp hkitem
  apply flatMap_congr_mem
  intro yo hyo
  have hy := List.mem_range.mp hyo
  rcases Nat.eq_zero_or_pos (geo.patch.output_shape.getD 1 0) with h1 | h1
  · rw [h1]
    simp
  · rw [if_pos ((hin kitem hk yo hy 0 h1).1)]
    apply List.map_congr_left
    intro xo hxo
    have hx := List.mem_range.mp hxo
    rw [if_pos ((hin kitem hk yo hy xo hx).2)]

theorem padded_2d_no_pad_eq_valid_2d_witness :
    Patcher.padded_2d ⟨1, ⟨1, 1, 4, 0⟩, 1, true⟩
      ⟨⟨⟨[1, 1]⟩, true, [0, 0], [0], [1, 1]⟩, 1, 1, ⟨1, 1, 4, 0⟩, 1,
        Patcher.Padded2d⟩
      (fun o => o) ⟨[1, 1], [1, 1], 1⟩ 0 (7 : Int)
      = Patcher.valid_2d ⟨1, ⟨1, 1, 4, 0⟩, 1, true⟩
        ⟨⟨⟨[1, 1]⟩, true, [0, 0], [0], [1, 1]⟩, 1, 1, ⟨1, 1, 4, 0⟩, 1,
          Patcher.Padded2d⟩
        (fun o => o) ⟨[1, 1], [1, 1], 1⟩ 0 :=
  padded_2d_no_pad_eq_valid_2d ⟨1, ⟨1, 1, 4, 0⟩, 1, true⟩
    ⟨⟨⟨[1, 1]⟩, true, [0, 0], [0], [1, 1]⟩, 1, 1, ⟨1, 1, 4, 0⟩, 1,
      Patcher.Padded2d⟩
    (fun o => o) ⟨[1, 1], [1, 1], 1⟩ 0 (7 : Int) rfl (by decide)

theorem flatMap_inner_to_range {α T : Type} (A : Nat) (l : List α) (d : α)
    (f : Nat → α → List T) :
    ((List.range A).flatMap fun a => l.flatMap fun b => f a b)
      = (List.range A).flatMap fun a =>
          (List.range l.length).flatMap fun i => f a (l.getD i d) :=
  flatMap_congr_mem fun a _ => flatMap_eq_range_flatMap l (f a) d

theorem getD_stream4 {T : Type} (cig len o0 o1 : Nat)
    (v : Nat → Nat → Nat → Nat → T) (d : T) (ci ii y x : Nat) (hci : ci < cig)
    (hii : ii < len) (hy : y < o0) (hx : x < o1) :
    ((List.range cig).flatMap fun a =>
      (List.range len).flatMap fun i =>
        (List.range o0).flatMap fun yy =>
          (List.range o1).map fun xx => v a i yy xx).getD
      (ci * (len * (o0 * o1)) + (ii * (o0 * o1) + (y * o1 + x))) d
      = v ci ii y x := by
  have hmap : ∀ a i yy : Nat,
      ((List.range o1).map fun xx => v a i yy xx).length = o1 := by
    intro a i yy
    rw [List.length_map, List.length_range]
  have hin2 : ∀ a i : Nat,
      ((List.range o0).flatMap fun yy =>
        (List.range o1).map fun xx => v a i yy xx).length = o0 * o1 := by
    intro a i
    rw [length_flatMap_const _ _ o1 fun yy _ => hmap a i yy, List.length_range]
  have hin1 : ∀ a : Nat,
      ((List.range len).flatMap fun i =>
        (List.range o0).flatMap fun yy =>
          (List.range o1).map fun xx => v a i yy xx).length = len * (o0 * o1) := by
    intro a
    rw [length_flatMap_const _ _ (o0 * o1) fun i _ => hin2 a i, List.length_range]
  have e3 : (y + 1) * o1 ≤ o0 * o1 := Nat.mul_le_mul_right _ (by omega)
  have e4 : (y + 1) * o1 = y * o1 + o1 := by ring
  have e1 : (ii + 1) * (o0 * o1) ≤ len * (o0 * o1) := Nat.mul_le_mul_right _ (by omega)
  have e2 : (ii + 1) * (o0 * o1) = ii * (o0 * o1) + o0 * o1 := by ring
  rw [getD_flatMap_range cig (len * (o0 * o1)) _ d (fun a _ => hin1 a) ci _ hci
    (by omega)]
  rw [getD_flatMap_range len (o0 * o1) _ d (fun i _ => hin2 ci i) ii _ hii
    (by omega)]
  rw [getD_flatMap_range o0 o1 _ d (fun yy _ => hmap ci ii yy) y x hy hx]
  rw [getD_map_range o1 _ d x hx]

theorem getD_stream3 {T : Type} (cig len o0 : Nat) (v : Nat → Nat → Nat → T)
    (d : T) (ci ii x : Nat) (hci : ci < cig) (hii : ii < len) (hx : x < o0) :
    ((List.range cig).flatMap fun a =>
      (List.range len).flatMap fun i =>
        (List.range o0).map fun xx => v a i xx).getD
      (ci * (len * o0) + (ii * o0 + x)) d
      = v ci ii x := by
  have hmap : ∀ a i : Nat, ((List.range o0).map fun xx => v a i xx).length = o0 := by
    intro a i
    rw [List.length_map, List.length_range]
  have hin1 : ∀ a : Nat,
      ((List.range len).flatMap fun i =>
        (List.range o0).map fun xx => v a i xx).length = len * o0 := by
    intro a
    rw [length_flatMap_const _ _ o0 fun i _ => hmap a i, List.length_range]
  have e1 : (ii + 1) * o0 ≤ len * o0 := Nat.mul_le_mul_right _ (by omega)
  have e2 : (ii + 1) * o0 = ii * o0 + o0 := by ring
  rw [getD_flatMap_range cig (len * o0) _ d (fun a _ => hin1 a) ci _ hci (by omega)]
  rw [getD_flatMap_range len o0 _ d (fun i _ => hmap ci i) ii x hii hx]
  rw [getD_map_range o0 _ d x hx]

theorem lattice1_length (o0 : Nat) : (lattice [o0]).length = o0 := by
  simp only [lattice, List.map_cons, List.map_nil]
  rw [length_flatMap_const _ _ 1 ?inner, List.length_range, Nat.mul_one]
  case inner => intro a _; rfl

theorem lattice1_getD (o0 x : Nat) (hx : x < o0) :
    (lattice [o0]).getD x [] = [x] := by
  simp only [lattice, List.map_cons, List.map_nil]
  have h := getD_flatMap_range o0 1 (fun i => [[i]]) ([] : List Nat)
    (fun a _ => rfl) x 0 hx Nat.one_pos
  simp only [Nat.mul_one, Nat.add_zero] at h
  exact h

theorem lattice2_length (o0 o1 : Nat) : (lattice [o0, o1]).length = o0 * o1 := by
  simp only [lattice, List.map_cons, List.map_nil]
  rw [length_flatMap_const _ _ o1 ?inner, List.length_range]
  intro a ha
  rw [List.length_map, length_flatMap_const _ _ 1 ?inner2, List.length_range,
    Nat.mul_one]
  case inner2 => intro b _; rfl

theorem lattice2_getD (o0 o1 y x : Nat) (hy : y < o0) (hx : x < o1) :
    (lattice [o0, o1]).getD (y * o1 + x) [] = [y, x] := by
  have hlen1 : ((List.range o1).flatMap fun i2 => [[i2]] : List (List Nat)).length
      = o1 := by
    rw [length_flatMap_const _ _ 1 ?inner3, List.length_range, Nat.mul_one]
    case inner3 => intro b _; rfl
  simp only [lattice, List.map_cons, List.map_nil]
  rw [getD_flatMap_range o0 o1 _ ([] : List Nat) ?hL y x hy hx]
  · rw [getD_map_of_lt _ _ ([] : List Nat) ([] : List Nat) x (by rw [hlen1]; exact hx)]
    have h := getD_flatMap_range o1 1 (fun i2 => [[i2]]) ([] : List Nat)
      (fun a _ => rfl) x 0 hx Nat.one_pos
    simp only [Nat.mul_one, Nat.add_zero] at h
    rw [h]
    rfl
  · intro a _
    rw [List.length_map, hlen1]

theorem Patch.at_rank2 (p : Patch) (shape : DataShape) (o0 o1 : Nat)
    (hsh : p.output_shape = [o0, o1]) (y x i : Nat)
    (h0 : 0 ≤ (y : Int) * (p.spec.strides.getD 0 0 : Int) +
        p.data_field.getD (i * 2) 0 ∧
      (y : Int) * (p.spec.strides.getD 0 0 : Int) + p.data_field.getD (i * 2) 0
        < (shape.hwDims.getD 0 0 : Int))
    (h1 : 0 ≤ (x : Int) * (p.spec.strides.getD 1 0 : Int) +
        p.data_field.getD (1 + i * 2) 0 ∧
      (x : Int) * (p.spec.strides.getD 1 0 : Int) +
        p.data_field.getD (1 + i * 2) 0
        < (shape.hwDims.getD 1 0 : Int)) :
    p.at shape [y, x] i
      = some (p.standard_layout_data_field.getD i 0 +
          ((y : Int) * (p.spec.strides.getD 0 0 : Int) *
              (shape.hwStrides.getD 0 0 : Int) +
           ((x : Int) * (p.spec.strides.getD 1 0 : Int) *
              (shape.hwStrides.getD 1 0 : Int) + 0))) := by
  have h2 : (0 : Nat) + 1 + 1 = 2 := rfl
  simp only [Patch.at, hsh, List.length_cons, List.length_nil, h2]
  rw [if_pos ?cond]
  case cond =>
    intro r hr
    have hr2 : r = 0 ∨ r = 1 := by omega
    rcases hr2 with hr | hr <;> subst hr
    · simpa using h0
    · have e : i * 2 + 1 = 1 + i * 2 := by omega
      simpa [e] using h1
  rw [show List.range 2 = [0, 1] from rfl]
  simp only [List.map_cons, List.map_nil, List.sum_cons, List.sum_nil,
    List.getD_cons_zero, List.getD_cons_succ]

theorem Patch.at_rank1 (p : Patch) (shape : DataShape) (o0 : Nat)
    (hsh : p.output_shape = [o0]) (x i : Nat)
    (h0 : 0 ≤ (x : Int) * (p.spec.strides.getD 0 0 : Int) +
        p.data_field.getD i 0 ∧
      (x : Int) * (p.spec.strides.getD 0 0 : Int) + p.data_field.getD i 0
        < (shape.hwDims.getD 0 0 : Int)) :
    p.at shape [x] i
      = some (p.standard_layout_data_field.getD i 0 +
          ((x : Int) * (p.spec.strides.getD 0 0 : Int) *
            (shape.hwStrides.getD 0 0 : Int) + 0)) := by
  have h1 : (0 : Nat) + 1 = 1 := rfl
  simp only [Patch.at, hsh, List.length_cons, List.length_nil, h1]
  rw [if_pos ?cond]
  case cond =>
    intro r hr
    have hr0 : r = 0 := by omega
    subst hr0
    have e : i * 1 + 0 = i := by omega
    simpa [e] using h0
  rw [show List.range 1 = [0] from rfl]
  simp only [List.map_cons, List.map_nil, List.sum_cons, List.sum_nil,
    List.getD_cons_zero]

theorem map_lattice2_getD {U : Type} (o0 o1 : Nat) (f : List Nat → U) (d : U)
    (y x : Nat) (hy : y < o0) (hx : x < o1) :
    ((lattice [o0, o1]).map f).getD (y * o1 + x) d = f [y, x] := by
  have e3 : (y + 1) * o1 ≤ o0 * o1 := Nat.mul_le_mul_right _ (by omega)
  have e4 : (y + 1) * o1 = y * o1 + o1 := by ring
  rw [getD_map_of_lt _ _ d ([] : List Nat) _ (by rw [lattice2_length]; omega),
    lattice2_getD o0 o1 y x hy hx]

theorem map_lattice1_getD {U : Type} (o0 : Nat) (f : List Nat → U) (d : U)
    (x : Nat) (hx : x < o0) :
    ((lattice [o0]).map f).getD x d = f [x] := by
  rw [getD_map_of_lt _ _ d ([] : List Nat) _ (by rw [lattice1_length]; exact hx),
    lattice1_getD o0 x hx]

/-- C4: for an unpadded Patch of rank 2 (resp. rank 1) — every window
position in bounds on every axis, which is the meaning of `padded = false` —
the packed output of the specialized `valid_2d` (resp. `valid_1d`) strategy
is byte-identical to the output the `generic` strategy writes for the same
input, geometry, group index and destination, for any pad value handed to
the generic path.  The hypotheses `b_pack.k = ci_per_group · kernel_len` and
`n = Π output_shape` are the ConcreteGeometry invariants established by
`SymbolicGeometry::resolve`. -/
theorem valid_strategies_refine_generic {T : Type} [Zero T] (im2col : Im2Col)
    (geo : ConcreteGeometry) (input : Int → T) (shape : DataShape) (g : Nat)
    (pad : T)
    (hpk : im2col.b_pack.k
      = geo.ci_per_group * geo.patch.standard_layout_data_field.length)
    (hpad : geo.patch.padded = false) :
    (∀ o0 o1, geo.patch.output_shape = [o0, o1] → geo.n = o0 * o1 →
      (∀ kitem, kitem < geo.patch.standard_layout_data_field.length →
        ∀ yo, yo < o0 → ∀ xo, xo < o1 →
          (0 ≤ (yo : Int) * (geo.patch.spec.strides.getD 0 0 : Int) +
              geo.patch.data_field.getD (kitem * 2) 0 ∧
            (yo : Int) * (geo.patch.spec.strides.getD 0 0 : Int) +
              geo.patch.data_field.getD (kitem * 2) 0
                < (shape.hwDims.getD 0 0 : Int)) ∧
          (0 ≤ (xo : Int) * (geo.patch.spec.strides.getD 1 0 : Int) +
              geo.patch.data_field.getD (1 + kitem * 2) 0 ∧
            (xo : Int) * (geo.patch.spec.strides.getD 1 0 : Int) +
              geo.patch.data_field.getD (1 + kitem * 2) 0
                < (shape.hwDims.getD 1 0 : Int))) →
      Patcher.valid_2d im2col geo input shape g
        = Patcher.generic im2col geo input shape g pad) ∧
    (∀ o0, geo.patch.output_shape = [o0] → geo.n = o0 →
      (∀ kitem, kitem < geo.patch.standard_layout_data_field.length →
        ∀ xo, xo < o0 →
          0 ≤ (xo : Int) * (geo.patch.spec.strides.getD 0 0 : Int) +
              geo.patch.data_field.getD kitem 0 ∧
            (xo : Int) * (geo.patch.spec.strides.getD 0 0 : Int) +
              geo.patch.data_field.getD kitem 0
                < (shape.hwDims.getD 0 0 : Int)) →
      Patcher.valid_1d im2col geo input shape g
        = Patcher.generic im2col geo input shape g pad) := by
  constructor
  · intro o0 o1 hsh hn hin
    simp only [Patcher.valid_2d, Patcher.generic, Packer.write_with_k_outer,
      hsh, hn, List.getD_cons_zero, List.getD_cons_succ]
    rw [flatMap_inner_to_range geo.ci_per_group
      geo.patch.standard_layout_data_field (0 : Int)]
    apply Packer.pack_congr
    intro kk j hkk hj
    rw [hpk] at hkk
    have hlen0 : 0 < geo.patch.standard_layout_data_field.length := by
      rcases Nat.eq_zero_or_pos geo.patch.standard_layout_data_field.length with h | h
      · rw [h, Nat.mul_zero] at hkk
        omega
      · exact h
    have ho1 : 0 < o1 := by
      rcases Nat.eq_zero_or_pos o1 with h | h
      · rw [h, Nat.mul_zero] at hj
        omega
      · exact h
    have hci : kk / geo.patch.standard_layout_data_field.length
        < geo.ci_per_group := by
      rw [Nat.div_lt_iff_lt_mul hlen0]
      exact hkk
    have hii := Nat.mod_lt kk hlen0
    have hy : j / o1 < o0 := by
      rw [Nat.div_lt_iff_lt_mul ho1]
      exact hj
    have hx := Nat.mod_lt j ho1
    have hkkeq : kk = kk / geo.patch.standard_layout_data_field.length *
        geo.patch.standard_layout_data_field.length +
        kk % geo.patch.standard_layout_data_field.length := by
      have h := Nat.div_add_mod kk geo.patch.standard_layout_data_field.length
      have hc : geo.patch.standard_layout_data_field.length *
          (kk / geo.patch.standard_layout_data_field.length)
          = kk / geo.patch.standard_layout_data_field.length *
            geo.patch.standard_layout_data_field.length := Nat.mul_comm _ _
      omega
    have hjeq : j = j / o1 * o1 + j % o1 := by
      have h := Nat.div_add_mod j o1
      have hc : o1 * (j / o1) = j / o1 * o1 := Nat.mul_comm _ _
      omega
    have hidx : kk * (o0 * o1) + j
        = kk / geo.patch.standard_layout_data_field.length *
            (geo.patch.standard_layout_data_field.length * (o0 * o1)) +
          (kk % geo.patch.standard_layout_data_field.length * (o0 * o1) +
            (j / o1 * o1 + j % o1)) := by
      conv_lhs => rw [hkkeq, hjeq]
      ring
    rw [hidx,
      getD_stream4 geo.ci_per_group geo.patch.standard_layout_data_field.length
        o0 o1 _ 0 _ _ _ _ hci hii hy hx]
    conv_rhs => rw [hjeq]
    rw [map_lattice2_getD o0 o1 _ ([] : List T) _ _ hy hx]
    conv_rhs => rw [hkkeq]
    rw [getD_flatMap_range geo.ci_per_group
      geo.patch.standard_layout_data_field.length _ (0 : T) ?hLg
      (kk / geo.patch.standard_layout_data_field.length)
      (kk % geo.patch.standard_layout_data_field.length) hci hii]
    case hLg =>
      intro a _
      rw [List.length_map, List.length_range]
    rw [getD_map_range geo.patch.standard_layout_data_field.length _ (0 : T)
      (kk % geo.patch.standard_layout_data_field.length) hii]
    rw [Patch.at_rank2 geo.patch shape o0 o1 hsh (j / o1) (j % o1)
      (kk % geo.patch.standard_layout_data_field.length)
      ((hin _ hii _ hy _ hx).1) ((hin _ hii _ hy _ hx).2)]
    show input _ = input _
    congr 1
    simp only [DataShape.hStride, DataShape.wStride]
    push_cast
    ring
  · intro o0 hsh hn hin
    simp only [Patcher.valid_1d, Patcher.generic, Packer.write_with_k_outer,
      hsh, hn, List.getD_cons_zero]
    rw [flatMap_inner_to_range geo.ci_per_group
      geo.patch.standard_layout_data_field (0 : Int)]
    apply Packer.pack_congr
    intro kk j hkk hj
    rw [hpk] at hkk
    have hlen0 : 0 < geo.patch.standard_layout_data_field.length := by
      rcases Nat.eq_zero_or_pos geo.patch.standard_layout_data_field.length with h | h
      · rw [h, Nat.mul_zero] at hkk
        omega
      · exact h
    have hci : kk / geo.patch.standard_layout_data_field.length
        < geo.ci_per_group := by
      rw [Nat.div_lt_iff_lt_mul hlen0]
      exact hkk
    have hii := Nat.mod_lt kk hlen0
    have hkkeq : kk = kk / geo.patch.standard_layout_data_field.length *
        geo.patch.standard_layout_data_field.length +
        kk % geo.patch.standard_layout_data_field.length := by
      have h := Nat.div_add_mod kk geo.patch.standard_layout_data_field.length
      have hc : geo.patch.standard_layout_data_field.length *
          (kk / geo.patch.standard_layout_data_field.length)
          = kk / geo.patch.standard_layout_data_field.length *
            geo.patch.standard_layout_data_field.length := Nat.mul_comm _ _
      omega
    have hidx : kk * o0 + j
        = kk / geo.patch.standard_layout_data_field.length *
            (geo.patch.standard_layout_data_field.length * o0) +
          (kk % geo.patch.standard_layout_data_field.length * o0 + j) := by
      conv_lhs => rw [hkkeq]
      ring
    rw [hidx,
      getD_stream3 geo.ci_per_group geo.patch.standard_layout_data_field.length
        o0 _ 0 _ _ _ hci hii hj]
    rw [map_lattice1_getD o0 _ ([] : List T) _ hj]
    conv_rhs => rw [hkkeq]
    rw [getD_flatMap_range geo.ci_per_group
      geo.patch.standard_layout_data_field.length _ (0 : T) ?hLg1
      (kk / geo.patch.standard_layout_data_field.length)
      (kk % geo.patch.standard_layout_data_field.length) hci hii]
    case hLg1 =>
      intro a _
      rw [List.length_map, List.length_range]
    rw [getD_map_range geo.patch.standard_layout_data_field.length _ (0 : T)
      (kk % geo.patch.standard_layout_data_field.length) hii]
    rw [Patch.at_rank1 geo.patch shape o0 hsh j
      (kk % geo.patch.standard_layout_data_field.length) (hin _ hii _ hj)]
    show input _ = input _
    congr 1
    simp only [DataShape.hStride]
    push_cast
    ring

theorem valid_strategies_refine_generic_witness :
    Patcher.valid_2d ⟨1, ⟨1, 1, 4, 0⟩, 1, true⟩
      ⟨⟨⟨[1, 1]⟩, false, [0, 0], [0], [1, 1]⟩, 1, 1, ⟨1, 1, 4, 0⟩, 1,
        Patcher.Valid2d⟩
      (fun o => o) ⟨[1, 1], [1, 1], 1⟩ 0
      = Patcher.generic ⟨1, ⟨1, 1, 4, 0⟩, 1, true⟩
        ⟨⟨⟨[1, 1]⟩, false, [0, 0], [0], [1, 1]⟩, 1, 1, ⟨1, 1, 4, 0⟩, 1,
          Patcher.Valid2d⟩
        (fun o => o) ⟨[1, 1], [1, 1], 1⟩ 0 (7 : Int) ∧
    Patcher.valid_1d ⟨1, ⟨1, 1, 4, 0⟩, 1, true⟩
      ⟨⟨⟨[1]⟩, false, [0], [0], [1]⟩, 1, 1, ⟨1, 1, 4, 0⟩, 1, Patcher.Valid1d⟩
      (fun o => o) ⟨[1], [1], 1⟩ 0
      = Patcher.generic ⟨1, ⟨1, 1, 4, 0⟩, 1, true⟩
        ⟨⟨⟨[1]⟩, false, [0], [0], [1]⟩, 1, 1, ⟨1, 1, 4, 0⟩, 1, Patcher.Valid1d⟩
        (fun o => o) ⟨[1], [1], 1⟩ 0 (7 : Int) :=
  ⟨(valid_strategies_refine_generic ⟨1, ⟨1, 1, 4, 0⟩, 1, true⟩
      ⟨⟨⟨[1, 1]⟩, false, [0, 0], [0], [1, 1]⟩, 1, 1, ⟨1, 1, 4, 0⟩, 1,
        Patcher.Valid2d⟩
      (fun o => o) ⟨[1, 1], [1, 1], 1⟩ 0 (7 : Int) rfl rfl).1 1 1 rfl rfl
      (by decide),
   (valid_strategies_refine_generic ⟨1, ⟨1, 1, 4, 0⟩, 1, true⟩
      ⟨⟨⟨[1]⟩, false, [0], [0], [1]⟩, 1, 1, ⟨1, 1, 4, 0⟩, 1, Patcher.Valid1d⟩
      (fun o => o) ⟨[1], [1], 1⟩ 0 (7 : Int) rfl rfl).2 1 rfl rfl (by decide)⟩
